import Mathlib

/-!
Verification of the core geometric/motion pipeline of the simple_3d_graphics
repository (linalg.py, models.py, manager.py, scene.py), shallowly embedded
in Lean 4.

Embedding conventions:
* IEEE-754 float arithmetic is modelled by exact rational arithmetic (`ℚ`);
  comparisons against the tolerance `1.0e-9` on a Euclidean norm are modelled
  as comparisons of the squared norm against `(1.0e-9)^2`, which is equivalent
  for exact non-negative reals.
* numpy column matrices of homogeneous points with weight `w = 1` are modelled
  as lists of 3-component rational points; a `4x4` translation matrix acting on
  a `w = 1` column is modelled as componentwise translation of the 3 spatial
  components, which is exactly its action on such columns.
* `cos`/`sin` are taken as function parameters `cosf sinf : ℚ → ℚ`, keeping
  every definition executable; no theorem below depends on their values.
* Python exceptions (`KeyError`, `BasisError`) are modelled by `Option`:
  `none` is a raised exception.
-/

/-- 3-component rational vector (a numpy length-3 vector / a point's
spatial components). -/
abbrev V3 : Type := ℚ × ℚ × ℚ

namespace V3

def add (a b : V3) : V3 := (a.1 + b.1, a.2.1 + b.2.1, a.2.2 + b.2.2)

def sub (a b : V3) : V3 := (a.1 - b.1, a.2.1 - b.2.1, a.2.2 - b.2.2)

def smul (k : ℚ) (a : V3) : V3 := (k * a.1, k * a.2.1, k * a.2.2)

def dot (a b : V3) : ℚ := a.1 * b.1 + a.2.1 * b.2.1 + a.2.2 * b.2.2

/-- np.cross for length-3 vectors. -/
def cross (a b : V3) : V3 :=
  (a.2.1 * b.2.2 - a.2.2 * b.2.1,
   a.2.2 * b.1 - a.1 * b.2.2,
   a.1 * b.2.1 - a.2.1 * b.1)

/-- Squared Euclidean norm (`np.linalg.norm(v) ** 2`). -/
def normSq (a : V3) : ℚ := a.1 ^ 2 + a.2.1 ^ 2 + a.2.2 ^ 2

end V3

/-! ## MotionMap._piecewise (models.py)

The closure returned by `MotionMap._piecewise(times, vals)` carries one piece
of mutable state, the cursor `last_idx[0]`.  A call is modelled by `pwStep`,
which maps the cursor value and the query time to the returned value and the
new cursor value. -/

/-- Index of the first element strictly greater than `t`
(`np.where(l > t)[0][0]` when it exists, `none` when the filter is empty). -/
def firstGt (t : ℚ) : List ℚ → Option ℕ
  | [] => none
  | x :: xs => if t < x then some 0 else (firstGt t xs).map (· + 1)

/-- One call of the closure `v(t)` produced by `MotionMap._piecewise`:
`times` is truncated to `times[:len(vals)]`, the scan starts at the
remembered cursor `lastIdx`, and the pair (returned value, new cursor) is
produced.  `vals.get? (idx - 1)` models the Python `vals[idx]` access, which
is always in range at this call site. -/
def pwStep (times : List ℚ) (vals : List α) (lastIdx : ℕ) (t : ℚ) :
    Option α × ℕ :=
  let ts := times.take vals.length
  match firstGt t (ts.drop lastIdx) with
  | none => (none, lastIdx)
  | some j =>
      let idx := j + lastIdx
      if idx = 0 then (none, lastIdx) else (vals.get? (idx - 1), idx - 1)

/-- Repeated calls of the closure: threads the mutable cursor through a
sequence of query times, collecting the returned values. -/
def pwRun (times : List ℚ) (vals : List α) : ℕ → List ℚ → List (Option α)
  | _, [] => []
  | s, t :: qs =>
      let r := pwStep times vals s t
      r.1 :: pwRun times vals r.2 qs

/-- The cursor state `s` is adequate for a query at time `t`: every truncated
time entry strictly before the cursor is `≤ t`.  This is the precondition
under which a stateful call agrees with a fresh (cursor 0) call. -/
def pwGood (times : List ℚ) (vals : List α) (s : ℕ) (t : ℚ) : Prop :=
  ∀ j, j < s → j < (times.take vals.length).length →
    (times.take vals.length).getD j 0 ≤ t

/-! ## Linear algebra kernel (linalg.py) -/

/-- Square of the threshold `ORTH_EPSILON = 1.0e-9` for floating-point zero;
`norm < ORTH_EPSILON` is modelled as `normSq < ORTH_EPSILON ^ 2`. -/
def ORTH_EPSILON_SQ : ℚ := 1e-18

/-- `is_orthogonal_basis(x, y, z)`:
`np.linalg.norm(np.cross(x, y) - z) < ORTH_EPSILON`. -/
def is_orthogonal_basis (x y z : V3) : Bool :=
  decide (V3.normSq (V3.sub (V3.cross x y) z) < ORTH_EPSILON_SQ)

/-- Basis of 3 column vectors. -/
abbrev Basis3 : Type := V3 × V3 × V3

/-- `basis_matrix(basis)`: validates via `is_orthogonal_basis` and returns the
stored basis, raising `BasisError` (`none`) otherwise.  The source stores the
4x4 matrix whose first three columns are the basis vectors scaled to unit
length (with a fourth homogeneous row/column); the scaling and the constant
homogeneous part are not modelled, as no claim depends on them — only the
validation and the identity of the stored basis vectors are. -/
def basis_matrix (b : Basis3) : Option Basis3 :=
  if is_orthogonal_basis b.1 b.2.1 b.2.2 then some b else none

/-- Homogeneous 4-component column. -/
abbrev V4 : Type := ℚ × ℚ × ℚ × ℚ

/-- 4x4 matrix given by its rows. -/
abbrev M4 : Type := V4 × V4 × V4 × V4

def dot4 (a b : V4) : ℚ :=
  a.1 * b.1 + a.2.1 * b.2.1 + a.2.2.1 * b.2.2.1 + a.2.2.2 * b.2.2.2

def M4.apply (m : M4) (v : V4) : V4 :=
  (dot4 m.1 v, dot4 m.2.1 v, dot4 m.2.2.1 v, dot4 m.2.2.2 v)

/-- `rotation_matrix(point, direction, angle)` with `cos`/`sin` supplied as
the function parameters `cosf`/`sinf` (keeping the definition executable over
`ℚ`; no theorem depends on their values). -/
def rotation_matrix (cosf sinf : ℚ → ℚ) (point direction : V3) (angle : ℚ) : M4 :=
  let a := point.1; let b := point.2.1; let c := point.2.2
  let u := direction.1; let v := direction.2.1; let w := direction.2.2
  let co := cosf angle; let si := sinf angle
  ((u ^ 2 + (v ^ 2 + w ^ 2) * co,
    u * v * (1 - co) - w * si,
    u * w * (1 - co) + v * si,
    (a * (v ^ 2 + w ^ 2) - u * (b * v + c * w)) * (1 - co) + (b * w - c * v) * si),
   (u * v * (1 - co) + w * si,
    v ^ 2 + (u ^ 2 + w ^ 2) * co,
    v * w * (1 - co) - u * si,
    (b * (u ^ 2 + w ^ 2) - v * (a * u + c * w)) * (1 - co) + (c * u - a * w) * si),
   (u * w * (1 - co) - v * si,
    v * w * (1 - co) + u * si,
    w ^ 2 + (u ^ 2 + v ^ 2) * co,
    (c * (u ^ 2 + v ^ 2) - w * (a * u + b * v)) * (1 - co) + (a * v - b * u) * si),
   (0, 0, 0, 1))

/-- The three homogeneous columns of a 4x3 basis matrix. -/
abbrev BCols : Type := V4 × V4 × V4

def col3 (c : V4) : V3 := (c.1, c.2.1, c.2.2.1)

/-- `rotate_basis(basis_mat, direction, angle)`: left-multiplies each column
by `rotation_matrix((0, 0, 0), direction, angle)`. -/
def rotate_basis (cosf sinf : ℚ → ℚ) (bm : BCols) (direction : V3) (angle : ℚ) : BCols :=
  let r := rotation_matrix cosf sinf (0, 0, 0) direction angle
  (r.apply bm.1, r.apply bm.2.1, r.apply bm.2.2)

/-- `oriented_basis(yaw, pitch, roll)`: rotates the world-aligned basis about
its own (evolving) z, x, y columns by yaw, pitch, roll respectively. -/
def oriented_basis (cosf sinf : ℚ → ℚ) (yaw pitch roll : ℚ) : Basis3 :=
  let b0 : BCols := ((1, 0, 0, 0), (0, 1, 0, 0), (0, 0, 1, 0))
  let b1 := rotate_basis cosf sinf b0 (col3 b0.2.2) yaw
  let b2 := rotate_basis cosf sinf b1 (col3 b1.1) pitch
  let b3 := rotate_basis cosf sinf b2 (col3 b2.2.1) roll
  (col3 b3.1, col3 b3.2.1, col3 b3.2.2)

/-! ## Space and Model (models.py)

`Space` stores a validated basis matrix and a translation matrix, plus a
cached inverse recomputed by both setters; the state is fully described by
the basis columns and the origin (the cache is a function of them and no
claim reads it), so those two fields are the embedded state. -/

structure Space where
  basis : Basis3
  origin : V3
  deriving DecidableEq

/-- `Space()` with the default world-aligned basis and zero origin. -/
def Space.init : Space :=
  { basis := ((1, 0, 0), (0, 1, 0), (0, 0, 1)), origin := (0, 0, 0) }

/-- The `origin` setter (builds `translation_matrix(*origin)`; on the
embedded state, stores the origin). -/
def Space.setOrigin (sp : Space) (o : V3) : Space := { sp with origin := o }

/-- The `basis` setter: validates through `basis_matrix`, `none` modelling a
raised `BasisError`. -/
def Space.setBasis (sp : Space) (b : Basis3) : Option Space :=
  (basis_matrix b).map fun cols => { sp with basis := cols }

/-- `Model`: vertices are the homogeneous `w = 1` columns of `_vertices`,
kept as their 3 spatial components.  The face list and colour fields are not
modelled — no claim mentions them. -/
structure Model where
  vertices : List V3
  space : Space
  deriving DecidableEq

def sumV3 (vs : List V3) : V3 := vs.foldr V3.add (0, 0, 0)

/-- `Model.centroid`: `np.sum(self._vertices[:3], axis=1) / count`
(the Python value is NaN for zero vertices; the claims only concern
non-empty vertex lists). -/
def Model.centroid (m : Model) : V3 :=
  V3.smul (1 / (m.vertices.length : ℚ)) (sumV3 m.vertices)

/-- `Model.set_local_center(center)`: multiplies the homogeneous vertex
columns by `translation_matrix(-center)`, i.e. translates every vertex
by `-center`. -/
def Model.set_local_center (m : Model) (center : V3) : Model :=
  { m with vertices := m.vertices.map fun v => V3.sub v center }

/-- `Model.__init__(vertices)`: identity frame, then
`set_local_center(self.centroid)`. -/
def Model.new (vs : List V3) : Model :=
  let m : Model := { vertices := vs, space := Space.init }
  m.set_local_center m.centroid

/-- `Model.origin` getter: position of the model in world coordinates. -/
def Model.origin (m : Model) : V3 := m.space.origin

/-- `Model.origin` setter. -/
def Model.setOrigin (m : Model) (o : V3) : Model :=
  { m with space := m.space.setOrigin o }

/-- `Model.basis` setter (validating, through the `Space` basis setter). -/
def Model.setBasis (m : Model) (b : Basis3) : Option Model :=
  (m.space.setBasis b).map fun sp => { m with space := sp }

/-- `Model.scale(factor)`: `self._vertices[:3, :] *= factor` — multiplies the
spatial components of every vertex, leaving the space untouched. -/
def Model.scale (m : Model) (factor : ℚ) : Model :=
  { m with vertices := m.vertices.map (V3.smul factor) }

/-! ## ModelManager (manager.py)

Python dicts are key-unique ordered maps, embedded as association lists with
Python's update-in-place/append-on-new assignment semantics. -/

def dictGet (l : List (ℕ × α)) (k : ℕ) : Option α :=
  match l with
  | [] => none
  | p :: rest => if p.1 = k then some p.2 else dictGet rest k

def dictSet (l : List (ℕ × α)) (k : ℕ) (v : α) : List (ℕ × α) :=
  match l with
  | [] => [(k, v)]
  | p :: rest => if p.1 = k then (k, v) :: rest else p :: dictSet rest k v

def dictDel (l : List (ℕ × α)) (k : ℕ) : List (ℕ × α) :=
  match l with
  | [] => []
  | p :: rest => if p.1 = k then rest else p :: dictDel rest k

/-- Key uniqueness, guaranteed for the association lists that embed Python
dicts. -/
def dictNodup (l : List (ℕ × α)) : Prop := (l.map Prod.fst).Nodup

/-- The `get_state` interface of a `MotionMap`: time to
(optional position, optional (yaw, pitch, roll)). -/
def Motion : Type := ℚ → Option V3 × Option V3

/-- `MotionMap(positions, orientations, times)` in the sampled (non-callable)
case, with both piecewise cursors at their initial state 0 (cursor evolution
across calls is settled separately on `pwStep`/`pwRun`). -/
def motionOfSamples (positions orientations : List V3) (times : List ℚ) : Motion :=
  fun t => ((pwStep times positions 0 t).1, (pwStep times orientations 0 t).1)

structure Manager where
  models : List (ℕ × Model)
  motions : List (ℕ × Motion)

def Manager.empty : Manager := { models := [], motions := [] }

/-- `add_motion(key, positions, orientations, times)`:
`self._motions[key] = MotionMap(positions, orientations, times)` —
an unconditional dict assignment, with no check that `key` names a model. -/
def Manager.add_motion (mgr : Manager) (k : ℕ)
    (positions orientations : List V3) (times : List ℚ) : Manager :=
  { mgr with motions := dictSet mgr.motions k (motionOfSamples positions orientations times) }

/-- `remove_model(key)`: `del self._models[key]` (KeyError — `none` — when
absent), then `del self._motions[key]` guarded by `key in self._motions`. -/
def Manager.remove_model (mgr : Manager) (k : ℕ) : Option Manager :=
  if (dictGet mgr.models k).isSome then
    some { models := dictDel mgr.models k,
           motions := if (dictGet mgr.motions k).isSome then dictDel mgr.motions k
                      else mgr.motions }
  else none

/-- `set_position(key, position)`: `self._models[key].origin = position`
(KeyError — `none` — when the key names no model). -/
def Manager.set_position (mgr : Manager) (k : ℕ) (p : V3) : Option Manager :=
  match dictGet mgr.models k with
  | none => none
  | some m => some { mgr with models := dictSet mgr.models k (m.setOrigin p) }

/-- `orient(key, yaw, pitch, roll)`:
`self._models[key].basis = oriented_basis(yaw, pitch, roll)` (KeyError when
the key names no model, BasisError from the validating basis setter). -/
def Manager.orient (cosf sinf : ℚ → ℚ) (mgr : Manager) (k : ℕ)
    (yaw pitch roll : ℚ) : Option Manager :=
  match dictGet mgr.models k with
  | none => none
  | some m =>
      (m.setBasis (oriented_basis cosf sinf yaw pitch roll)).map
        fun m2 => { mgr with models := dictSet mgr.models k m2 }

/-- `_get_states(time)`: `{key: self._motions[key].get_state(time)}`, in the
motions dict's iteration order. -/
def Manager.get_states (mgr : Manager) (t : ℚ) : List (ℕ × (Option V3 × Option V3)) :=
  mgr.motions.map fun p => (p.1, p.2 t)

/-- The body of the per-key loop of `update_models`: write the position if
present, then the orientation if present. -/
def Manager.updateStep (cosf sinf : ℚ → ℚ) (mgr : Manager)
    (ks : ℕ × (Option V3 × Option V3)) : Option Manager := do
  let mgr1 ← match ks.2.1 with
    | some p => mgr.set_position ks.1 p
    | none => some mgr
  match ks.2.2 with
  | some o => Manager.orient cosf sinf mgr1 ks.1 o.1 o.2.1 o.2.2
  | none => some mgr1

/-- `update_models(time)`: resolve all states, then run the per-key loop;
`none` models an escaping KeyError/BasisError. -/
def Manager.update_models (cosf sinf : ℚ → ℚ) (mgr : Manager) (t : ℚ) : Option Manager :=
  (mgr.get_states t).foldlM (Manager.updateStep cosf sinf) mgr

/-- The documented Collection invariant: every key in motions also names a
model. -/
def Manager.inv (mgr : Manager) : Prop :=
  ∀ k, (dictGet mgr.motions k).isSome → (dictGet mgr.models k).isSome

/-! ## Near-plane clipping (scene.py) -/

/-- `Scene._get_z(v1, v2, min_z)`: `none` on the guard, otherwise the linear
interpolation of `v1`, `v2` at `z = min_z` (whose z component is exactly
`min_z`). -/
def get_z (v1 v2 : V3) (min_z : ℚ) : Option V3 :=
  if v2.2.2 = v1.2.2 ∨ min_z < v1.2.2 ∨ v2.2.2 < min_z then none
  else
    let dx := v2.1 - v1.1
    let dy := v2.2.1 - v1.2.1
    let dz := v2.2.2 - v1.2.2
    let i := (min_z - v1.2.2) / dz
    some (v1.1 + dx * i, v1.2.1 + dy * i, min_z)

/-- The `while` loop of `Scene._clip`, fuel-indexed: each iteration strictly
decreases `face.length - i`, so fuel `face.length - i` runs the loop to its
exit (`i = face.length` when the fuel hits 0).  `face_vertices[i - 1]` uses
Python's negative indexing at `i = 0`, hence the `(i + n - 1) % n` index; the
`getD` defaults are never read since the indices are `< n`.  The appended
side vertices model `sides.append(self._get_z(...))`; the guard of the
branch makes `_get_z` return a value (never `None`), so the `getD (0, 0, 0)`
payload extraction is exact. -/
def clipSides (d : ℚ) (cur prev next : V3) : List V3 :=
  (if d ≤ prev.2.2 then [(get_z cur prev d).getD (0, 0, 0)] else []) ++
  (if d ≤ next.2.2 then [(get_z cur next d).getD (0, 0, 0)] else [])

def clipAux (d : ℚ) : ℕ → List V3 → ℕ → List V3
  | 0, face, _ => face
  | fuel + 1, face, i =>
      if h : i < face.length then
        let cur := face.get ⟨i, h⟩
        if cur.2.2 < d then
          let n := face.length
          let sides := clipSides d cur (face.getD ((i + n - 1) % n) (0, 0, 0))
            (face.getD ((i + 1) % n) (0, 0, 0))
          clipAux d fuel (face.take i ++ sides ++ face.drop (i + 1)) (i + sides.length)
        else
          clipAux d fuel face (i + 1)
      else face

/-- `Scene._clip(face_vertices, clip_dist)`. -/
def clip (face : List V3) (d : ℚ) : List V3 := clipAux d face.length face 0

/-! # Theorems

First, the `_piecewise` scan `firstGt` is characterised. -/

theorem firstGt_eq_none_iff (t : ℚ) (l : List ℚ) :
    firstGt t l = none ↔ ∀ x ∈ l, x ≤ t := by
  induction l with
  | nil => simp [firstGt]
  | cons x xs ih =>
      by_cases hx : t < x
      · simp only [firstGt, if_pos hx]
        constructor
        · intro h; cases h
        · intro h; exact absurd hx (not_lt.mpr (h x (List.mem_cons_self x xs)))
      · rw [firstGt, if_neg hx, Option.map_eq_none', ih, List.forall_mem_cons]
        exact (and_iff_right (not_lt.mp hx)).symm

theorem firstGt_eq_some_iff (t : ℚ) (l : List ℚ) (j : ℕ) :
    firstGt t l = some j ↔
      j < l.length ∧ t < l.getD j 0 ∧ ∀ i, i < j → l.getD i 0 ≤ t := by
  induction l generalizing j with
  | nil => simp [firstGt]
  | cons x xs ih =>
      by_cases hx : t < x
      · simp only [firstGt, if_pos hx]
        constructor
        · intro h
          injection h with h2
          subst h2
          exact ⟨by simp, by simpa using hx, fun i hi => absurd hi (Nat.not_lt_zero i)⟩
        · rintro ⟨hj, hgt, hall⟩
          cases j with
          | zero => rfl
          | succ k =>
              have h0 := hall 0 (Nat.succ_pos k)
              rw [List.getD_cons_zero] at h0
              exact absurd hx (not_lt.mpr h0)
      · rw [firstGt, if_neg hx]
        cases j with
        | zero =>
            constructor
            · intro h
              rcases Option.map_eq_some'.mp h with ⟨a, _, ha⟩
              omega
            · rintro ⟨hj, hgt, hall⟩
              rw [List.getD_cons_zero] at hgt
              exact absurd hgt hx
        | succ k =>
            constructor
            · intro h
              rcases Option.map_eq_some'.mp h with ⟨a, ha, hak⟩
              have hk : a = k := by omega
              rw [hk] at ha
              rcases (ih k).mp ha with ⟨h1, h2, h3⟩
              refine ⟨by simp [List.length_cons]; omega, by simpa using h2, ?_⟩
              intro i hi
              cases i with
              | zero => rw [List.getD_cons_zero]; exact not_lt.mp hx
              | succ m => rw [List.getD_cons_succ]; exact h3 m (by omega)
            · rintro ⟨hj, hgt, hall⟩
              have hxs : firstGt t xs = some k := by
                refine (ih k).mpr ⟨?_, by simpa using hgt, ?_⟩
                · rw [List.length_cons] at hj; omega
                · intro i hi
                  have := hall (i + 1) (by omega)
                  rwa [List.getD_cons_succ] at this
              rw [hxs]
              rfl

theorem sorted_getD_le {l : List ℚ} (hs : l.Sorted (fun a b => a ≤ b)) {i j : ℕ}
    (hij : i ≤ j) (hj : j < l.length) : l.getD i 0 ≤ l.getD j 0 := by
  have hi : i < l.length := Nat.lt_of_le_of_lt hij hj
  rw [List.getD_eq_get _ _ hi, List.getD_eq_get _ _ hj]
  rcases lt_or_eq_of_le hij with h | h
  · exact List.pairwise_iff_get.mp hs ⟨i, hi⟩ ⟨j, hj⟩ (Fin.mk_lt_mk.mpr h)
  · subst h; rfl

/-- One fresh (cursor 0) call, written as a case split on the scan. -/
theorem pwStep_zero_eq (times : List ℚ) (vals : List α) (t : ℚ) :
    pwStep times vals 0 t =
      match firstGt t (times.take vals.length) with
      | none => (none, 0)
      | some 0 => (none, 0)
      | some (j + 1) => (vals.get? j, j) := by
  cases hfg : firstGt t (times.take vals.length) with
  | none => simp [pwStep, hfg]
  | some j => cases j with
    | zero => simp [pwStep, hfg]
    | succ k => simp [pwStep, hfg]

/-- Fresh call before the first truncated time: no value. -/
theorem pwStep_fresh_before (times : List ℚ) (vals : List α) (t : ℚ)
    (h0 : 0 < (times.take vals.length).length)
    (ht : t < (times.take vals.length).getD 0 0) :
    (pwStep times vals 0 t).1 = none := by
  have hfg : firstGt t (times.take vals.length) = some 0 :=
    (firstGt_eq_some_iff t _ 0).mpr ⟨h0, ht, fun i hi => absurd hi (Nat.not_lt_zero i)⟩
  rw [pwStep_zero_eq, hfg]

/-- Fresh call in the interval `[times[i], times[i+1])` of the truncated,
sorted time list: the value is `vals[i]` (and `i` is in range for `vals`). -/
theorem pwStep_fresh_mid (times : List ℚ) (vals : List α) (t : ℚ) (i : ℕ)
    (hs : (times.take vals.length).Sorted (fun a b => a ≤ b))
    (hi : i + 1 < (times.take vals.length).length)
    (hlo : (times.take vals.length).getD i 0 ≤ t)
    (hhi : t < (times.take vals.length).getD (i + 1) 0) :
    (pwStep times vals 0 t).1 = vals.get? i ∧ i < vals.length := by
  have hfg : firstGt t (times.take vals.length) = some (i + 1) := by
    refine (firstGt_eq_some_iff t _ (i + 1)).mpr ⟨hi, hhi, ?_⟩
    intro k hk
    exact le_trans (sorted_getD_le hs (by omega) (by omega)) hlo
  have hiv : i < vals.length := by
    have := List.length_take vals.length times
    omega
  rw [pwStep_zero_eq, hfg]
  exact ⟨rfl, hiv⟩

/-- Fresh call at or after the last truncated time: no value (the scan finds
nothing strictly greater). -/
theorem pwStep_fresh_after (times : List ℚ) (vals : List α) (t : ℚ)
    (hs : (times.take vals.length).Sorted (fun a b => a ≤ b))
    (hlast : (times.take vals.length).getD ((times.take vals.length).length - 1) 0 ≤ t) :
    (pwStep times vals 0 t).1 = none := by
  have hfg : firstGt t (times.take vals.length) = none := by
    rw [firstGt_eq_none_iff]
    intro x hx
    rcases List.mem_iff_get.mp hx with ⟨⟨k, hk⟩, rfl⟩
    calc (times.take vals.length).get ⟨k, hk⟩
        = (times.take vals.length).getD k 0 := (List.getD_eq_get _ _ hk).symm
      _ ≤ (times.take vals.length).getD ((times.take vals.length).length - 1) 0 :=
          sorted_getD_le hs (by omega) (by omega)
      _ ≤ t := hlast
  rw [pwStep_zero_eq, hfg]

/-- C1 counterexample: the claim asserts that for `t` at or after the last
time the piecewise function returns the last value; on
`buildPiecewise([0, 1, 2], [10, 20, 30])` at `t = 2` the code returns no
value, not `some 30`. -/
theorem C1_counterexample :
    (pwStep [(0 : ℚ), 1, 2] [(10 : ℕ), 20, 30] 0 2).1 = none ∧
      ¬(pwStep [(0 : ℚ), 1, 2] [(10 : ℕ), 20, 30] 0 2).1 = some 30 := by
  decide

/-- C1 (amended): for the piecewise motion function built from N times and
M ≤ N values (times truncated to the shorter, sorted length): a fresh query
before the first time returns no value; a query in `[times[i], times[i+1])`
returns `values[i]`; and a query at or after the last time returns no value
(the last sampled value is never produced there). -/
theorem C1_piecewise_fresh_eval {α : Type} (times : List ℚ) (vals : List α)
    (hs : (times.take vals.length).Sorted (fun a b => a ≤ b)) :
    (∀ t : ℚ, 0 < (times.take vals.length).length →
        t < (times.take vals.length).getD 0 0 →
        (pwStep times vals 0 t).1 = none) ∧
    (∀ (t : ℚ) (i : ℕ), i + 1 < (times.take vals.length).length →
        (times.take vals.length).getD i 0 ≤ t →
        t < (times.take vals.length).getD (i + 1) 0 →
        (pwStep times vals 0 t).1 = vals.get? i ∧ i < vals.length) ∧
    (∀ t : ℚ, (times.take vals.length).getD ((times.take vals.length).length - 1) 0 ≤ t →
        (pwStep times vals 0 t).1 = none) :=
  ⟨fun t h0 ht => pwStep_fresh_before times vals t h0 ht,
   fun t i hi hlo hhi => pwStep_fresh_mid times vals t i hs hi hlo hhi,
   fun t hlast => pwStep_fresh_after times vals t hs hlast⟩

/-- C1 witness: the amended theorem applied to
`buildPiecewise([0, 2, 4], [10, 20, 30])` at `t = 3 ∈ [2, 4)`. -/
theorem C1_piecewise_fresh_eval_witness :
    ([(0 : ℚ), 2, 4].take [(10 : ℕ), 20, 30].length).Sorted (fun a b => a ≤ b) ∧
      (pwStep [(0 : ℚ), 2, 4] [(10 : ℕ), 20, 30] 0 3).1 = [(10 : ℕ), 20, 30].get? 1 :=
  ⟨by decide,
   ((C1_piecewise_fresh_eval [(0 : ℚ), 2, 4] [(10 : ℕ), 20, 30] (by decide)).2.1
      3 1 (by decide) (by decide) (by decide)).1⟩

/-! Cursor-state lemmas for repeated queries. -/

theorem firstGt_from_drop (t : ℚ) (l : List ℚ) (s : ℕ)
    (h : ∀ j, j < s → j < l.length → l.getD j 0 ≤ t) :
    firstGt t l = (firstGt t (l.drop s)).map (fun a => a + s) := by
  induction s generalizing l with
  | zero =>
      rw [List.drop_zero]
      cases firstGt t l <;> simp
  | succ k ih =>
      cases l with
      | nil => simp [firstGt]
      | cons x xs =>
          have hx : x ≤ t := by
            have := h 0 (Nat.succ_pos k) (by simp)
            rwa [List.getD_cons_zero] at this
          rw [firstGt, if_neg (not_lt.mpr hx), List.drop_succ_cons]
          rw [ih xs ?hjs]
          case hjs =>
            intro j hj hjl
            have := h (j + 1) (by omega) (by simp [List.length_cons]; omega)
            rwa [List.getD_cons_succ] at this
          cases firstGt t (xs.drop k) with
          | none => rfl
          | some a =>
              simp only [Option.map_some']
              congr 1

/-- A call from an adequate cursor returns the same value a fresh call
would. -/
theorem pwStep_out_eq_fresh (times : List ℚ) (vals : List α) (s : ℕ) (t : ℚ)
    (h : pwGood times vals s t) :
    (pwStep times vals s t).1 = (pwStep times vals 0 t).1 := by
  have hdrop := firstGt_from_drop t (times.take vals.length) s h
  cases hfg : firstGt t ((times.take vals.length).drop s) with
  | none =>
      rw [hfg] at hdrop
      simp only [Option.map_none'] at hdrop
      simp only [pwStep, List.drop_zero, hfg, hdrop]
  | some j =>
      rw [hfg] at hdrop
      simp only [Option.map_some'] at hdrop
      simp only [pwStep, List.drop_zero, hfg, hdrop, Nat.add_zero]
      by_cases hz : j + s = 0
      · simp [hz]
      · simp [hz]

/-- After a call from an adequate cursor, the new cursor is adequate for any
later (or equal) query time. -/
theorem pwStep_next_good (times : List ℚ) (vals : List α) (s : ℕ) (t u : ℚ)
    (h : pwGood times vals s t) (htu : t ≤ u) :
    pwGood times vals (pwStep times vals s t).2 u := by
  have hg : ∀ j, j < s → j < (times.take vals.length).length →
      (times.take vals.length).getD j 0 ≤ u :=
    fun j hj hjl => le_trans (h j hj hjl) htu
  cases hfg : firstGt t ((times.take vals.length).drop s) with
  | none =>
      simp only [pwStep, hfg]
      exact hg
  | some j =>
      rcases (firstGt_eq_some_iff t _ j).mp hfg with ⟨hjl, _, hbefore⟩
      by_cases hz : j + s = 0
      · simp only [pwStep, hfg, if_pos hz]
        exact hg
      · simp only [pwStep, hfg, if_neg hz]
        intro k hk hkl
        by_cases hks : k < s
        · exact hg k hks hkl
        · have hk2 : k - s < j := by omega
          have hle := hbefore (k - s) hk2
          rw [List.getD_eq_getD_get?, List.get?_drop,
            show s + (k - s) = k from by omega] at hle
          rw [List.getD_eq_getD_get?]
          exact le_trans hle htu

/-- Running any monotone query sequence from an adequate cursor produces the
same outputs as fresh calls. -/
theorem pwRun_eq_fresh_of_good (times : List ℚ) (vals : List α) :
    ∀ (qs : List ℚ) (s : ℕ), qs.Chain' (fun a b => a ≤ b) →
      (∀ t0 ∈ qs.head?, pwGood times vals s t0) →
      pwRun times vals s qs = qs.map fun t => (pwStep times vals 0 t).1 := by
  intro qs
  induction qs with
  | nil => intro s _ _; simp [pwRun]
  | cons t rest ih =>
      intro s hc hg
      have hgt : pwGood times vals s t := hg t rfl
      rcases List.chain'_cons'.mp hc with ⟨hhead, htail⟩
      rw [pwRun, List.map_cons]

      congr 1
      · exact pwStep_out_eq_fresh times vals s t hgt
      · refine ih (pwStep times vals s t).2 htail ?_
        intro t0 ht0
        exact pwStep_next_good times vals s t t0 hgt (hhead t0 ht0)

/-- C2 counterexample: after a call at `t = 5` (which resolves index 2 and
remembers it), a backward call at `t = -1` returns `some 20`; the value
determined by `t = -1` alone is no value (`t` is before the first time), so
the remembered index does change the result, wrongly. -/
theorem C2_counterexample :
    pwRun [(0 : ℚ), 2, 4, 6] [(10 : ℕ), 20, 30, 40] 0 [5, -1] = [some 30, some 20] ∧
      (pwStep [(0 : ℚ), 2, 4, 6] [(10 : ℕ), 20, 30, 40] 0 (-1)).1 = none := by
  decide

/-- C2 (amended): for every piecewise motion function and every
monotonically non-decreasing sequence of query times starting from the fresh
cursor, each query returns exactly the value determined by its time alone
(the fresh-call value); a query smaller than a previous one, however, may
return a stale wrong value, as the counterexample shows. -/
theorem C2_monotone_queries_fresh {α : Type} (times : List ℚ) (vals : List α)
    (qs : List ℚ) (hc : qs.Chain' (fun a b => a ≤ b)) :
    pwRun times vals 0 qs = qs.map fun t => (pwStep times vals 0 t).1 :=
  pwRun_eq_fresh_of_good times vals qs 0 hc
    (fun _ _ j hj _ => absurd hj (Nat.not_lt_zero j))

/-- C2 witness: the amended theorem on the monotone query sequence
`[1, 3, 5]` against `buildPiecewise([0, 2, 4], [10, 20, 30])`. -/
theorem C2_monotone_queries_fresh_witness :
    List.Chain' (fun a b => a ≤ b) [(1 : ℚ), 3, 5] ∧
      pwRun [(0 : ℚ), 2, 4] [(10 : ℕ), 20, 30] 0 [1, 3, 5] =
        [(1 : ℚ), 3, 5].map fun t => (pwStep [(0 : ℚ), 2, 4] [(10 : ℕ), 20, 30] 0 t).1 :=
  ⟨by norm_num [List.chain'_cons], C2_monotone_queries_fresh [(0 : ℚ), 2, 4]
    [(10 : ℕ), 20, 30] [(1 : ℚ), 3, 5] (by norm_num [List.chain'_cons])⟩

/-! ## Clipping lemmas -/

theorem clipAux_zero (d : ℚ) (face : List V3) (i : ℕ) :
    clipAux d 0 face i = face := rfl

/-- Loop step on a vertex at or beyond the clip plane: keep it, advance. -/
theorem clipAux_step_keep (d : ℚ) (fuel : ℕ) (face : List V3) (i : ℕ)
    (h : i < face.length) (hz : ¬(face.get ⟨i, h⟩).2.2 < d) :
    clipAux d (fuel + 1) face i = clipAux d fuel face (i + 1) := by
  rw [clipAux, dif_pos h, if_neg hz]

/-- Loop step on a vertex behind the clip plane: splice in the side
vertices, advance past them. -/
theorem clipAux_step_clip (d : ℚ) (fuel : ℕ) (face : List V3) (i : ℕ)
    (h : i < face.length) (hz : (face.get ⟨i, h⟩).2.2 < d) :
    clipAux d (fuel + 1) face i =
      clipAux d fuel
        (face.take i ++
          clipSides d (face.get ⟨i, h⟩)
            (face.getD ((i + face.length - 1) % face.length) (0, 0, 0))
            (face.getD ((i + 1) % face.length) (0, 0, 0)) ++
          face.drop (i + 1))
        (i + (clipSides d (face.get ⟨i, h⟩)
            (face.getD ((i + face.length - 1) % face.length) (0, 0, 0))
            (face.getD ((i + 1) % face.length) (0, 0, 0))).length) := by
  rw [clipAux, dif_pos h, if_pos hz]

/-- On a straddling edge (`v1` behind, `v2` at or beyond), `_get_z` takes
none of its guard branches and returns the interpolated vertex, whose z
component is exactly the clip distance. -/
theorem get_z_straddle (v1 v2 : V3) (d : ℚ) (h1 : v1.2.2 < d) (h2 : d ≤ v2.2.2) :
    get_z v1 v2 d =
      some (v1.1 + (v2.1 - v1.1) * ((d - v1.2.2) / (v2.2.2 - v1.2.2)),
        v1.2.1 + (v2.2.1 - v1.2.1) * ((d - v1.2.2) / (v2.2.2 - v1.2.2)), d) := by
  rw [get_z, if_neg]
  simp only [not_or]
  exact ⟨ne_of_gt (lt_of_lt_of_le h1 h2), not_lt.mpr h1.le, not_lt.mpr h2⟩

/-- Both neighbours in front: two side vertices, each at `z = d`. -/
theorem clipSides_both (d : ℚ) (cur prev next : V3) (hc : cur.2.2 < d)
    (hp : d ≤ prev.2.2) (hn : d ≤ next.2.2) :
    ∃ p q, clipSides d cur prev next = [p, q] ∧ p.2.2 = d ∧ q.2.2 = d := by
  rw [clipSides, if_pos hp, if_pos hn,
    get_z_straddle cur prev d hc hp, get_z_straddle cur next d hc hn]
  exact ⟨_, _, rfl, rfl, rfl⟩

/-- Both neighbours behind: no side vertices. -/
theorem clipSides_none (d : ℚ) (cur prev next : V3) (hp : ¬d ≤ prev.2.2)
    (hn : ¬d ≤ next.2.2) : clipSides d cur prev next = [] := by
  rw [clipSides, if_neg hp, if_neg hn]
  rfl

/-- Whatever the neighbours, every side vertex generated for a behind vertex
lies exactly on the clip plane. -/
theorem clipSides_mem_z (d : ℚ) (cur prev next : V3) (hc : cur.2.2 < d) :
    ∀ v ∈ clipSides d cur prev next, v.2.2 = d := by
  intro v hv
  rw [clipSides] at hv
  rcases List.mem_append.mp hv with h | h
  · by_cases hp : d ≤ prev.2.2
    · rw [if_pos hp, get_z_straddle cur prev d hc hp] at h
      rcases List.mem_singleton.mp h with rfl
      rfl
    · rw [if_neg hp] at h
      cases h
  · by_cases hn : d ≤ next.2.2
    · rw [if_pos hn, get_z_straddle cur next d hc hn] at h
      rcases List.mem_singleton.mp h with rfl
      rfl
    · rw [if_neg hn] at h
      cases h

theorem getD_mem_of_lt (l : List V3) (n : ℕ) (d : V3) (h : n < l.length) :
    l.getD n d ∈ l := by
  rw [List.getD_eq_get _ _ h]
  exact l.get_mem _ _

theorem clipAux_step_out (d : ℚ) (fuel : ℕ) (face : List V3) (i : ℕ)
    (h : ¬i < face.length) : clipAux d (fuel + 1) face i = face := by
  rw [clipAux, dif_neg h]

/-- A face whose vertices are all at or beyond the plane passes through the
loop unchanged. -/
theorem clipAux_of_forall_ge (d : ℚ) (fuel : ℕ) :
    ∀ (face : List V3) (i : ℕ), (∀ v ∈ face, d ≤ v.2.2) →
      clipAux d fuel face i = face := by
  induction fuel with
  | zero => intro face i _; rfl
  | succ fuel ih =>
      intro face i hall
      by_cases h : i < face.length
      · have hz : ¬(face.get ⟨i, h⟩).2.2 < d := not_lt.mpr (hall _ (face.get_mem _ _))
        rw [clipAux_step_keep d fuel face i h hz]
        exact ih face (i + 1) hall
      · exact clipAux_step_out d fuel face i h

/-- A face whose vertices are all strictly behind the plane is consumed
entirely: each loop step deletes the head and generates no side vertices. -/
theorem clipAux_all_behind (d : ℚ) :
    ∀ face : List V3, (∀ v ∈ face, v.2.2 < d) →
      clipAux d face.length face 0 = [] := by
  intro face
  induction face with
  | nil => intro _; rfl
  | cons x xs ih =>
      intro hall
      have h0 : 0 < (x :: xs).length := by simp
      have hz : ((x :: xs).get ⟨0, h0⟩).2.2 < d := hall x (List.mem_cons_self x xs)
      have hprev : ((x :: xs).getD ((0 + (x :: xs).length - 1) % (x :: xs).length)
          (0, 0, 0)).2.2 < d :=
        hall _ (getD_mem_of_lt _ _ _ (Nat.mod_lt _ h0))
      have hnext : ((x :: xs).getD ((0 + 1) % (x :: xs).length) (0, 0, 0)).2.2 < d :=
        hall _ (getD_mem_of_lt _ _ _ (Nat.mod_lt _ h0))
      have step := clipAux_step_clip d xs.length (x :: xs) 0 h0 hz
      rw [clipSides_none d _ _ _ (not_le.mpr hprev) (not_le.mpr hnext)] at step
      simp only [List.take_zero, List.nil_append, List.append_nil, List.length_nil,
        Nat.add_zero, List.drop_succ_cons, List.drop_zero] at step
      rw [show (x :: xs).length = xs.length + 1 from rfl, step]
      exact ih fun v hv => hall v (List.mem_cons_of_mem x hv)

/-- Loop invariant: every vertex before the scan position is at or beyond
the plane, and this extends to the final list. -/
theorem clipAux_forall_ge (d : ℚ) (fuel : ℕ) :
    ∀ (face : List V3) (i : ℕ), i ≤ face.length → fuel = face.length - i →
      (∀ v ∈ face.take i, d ≤ v.2.2) →
      ∀ v ∈ clipAux d fuel face i, d ≤ v.2.2 := by
  induction fuel with
  | zero =>
      intro face i hi hfuel htake v hv
      rw [clipAux_zero] at hv
      have hif : i = face.length := by omega
      subst hif
      rw [List.take_length] at htake
      exact htake v hv
  | succ fuel ih =>
      intro face i hi hfuel htake v hv
      have h : i < face.length := by omega
      by_cases hz : (face.get ⟨i, h⟩).2.2 < d
      · rw [clipAux_step_clip d fuel face i h hz] at hv
        set s := clipSides d (face.get ⟨i, h⟩)
          (face.getD ((i + face.length - 1) % face.length) (0, 0, 0))
          (face.getD ((i + 1) % face.length) (0, 0, 0)) with hs
        have hlt : (face.take i).length = i := by
          rw [List.length_take]; omega
        have hlen2 : (face.take i ++ s).length = i + s.length := by
          rw [List.length_append, hlt]
        refine ih (face.take i ++ s ++ face.drop (i + 1)) (i + s.length) ?_ ?_ ?_ v hv
        · simp only [List.length_append, List.length_drop, hlt]
          omega
        · simp only [List.length_append, List.length_drop, hlt]
          omega
        · have htk : (face.take i ++ s ++ face.drop (i + 1)).take (i + s.length) =
              face.take i ++ s := by
            rw [← hlen2]
            exact List.take_left _ _
          rw [htk]
          intro v2 hv2
          rcases List.mem_append.mp hv2 with h2 | h2
          · exact htake v2 h2
          · exact le_of_eq (clipSides_mem_z d _ _ _ hz v2 h2).symm
      · rw [clipAux_step_keep d fuel face i h hz] at hv
        refine ih face (i + 1) (by omega) (by omega) ?_ v hv
        intro v2 hv2
        rw [List.take_succ] at hv2
        rcases List.mem_append.mp hv2 with h2 | h2
        · exact htake v2 h2
        · rw [List.getElem?_eq_getElem h] at h2
          rcases List.mem_singleton.mp (by simpa using h2) with rfl
          exact not_lt.mp hz

/-- C6: for every triangle and clip distance `d`: all three vertices at or
beyond `z = d` — returned unchanged; all three behind — empty result; exactly
one behind (each of the three positions) — a 4-vertex polygon whose 2
synthesized vertices lie exactly on `z = d`. -/
theorem C6_clip_triangle (A B C : V3) (d : ℚ) :
    (d ≤ A.2.2 → d ≤ B.2.2 → d ≤ C.2.2 → clip [A, B, C] d = [A, B, C]) ∧
    (A.2.2 < d → B.2.2 < d → C.2.2 < d → clip [A, B, C] d = []) ∧
    (A.2.2 < d → d ≤ B.2.2 → d ≤ C.2.2 →
      ∃ p q, clip [A, B, C] d = [p, q, B, C] ∧ p.2.2 = d ∧ q.2.2 = d) ∧
    (d ≤ A.2.2 → B.2.2 < d → d ≤ C.2.2 →
      ∃ p q, clip [A, B, C] d = [A, p, q, C] ∧ p.2.2 = d ∧ q.2.2 = d) ∧
    (d ≤ A.2.2 → d ≤ B.2.2 → C.2.2 < d →
      ∃ p q, clip [A, B, C] d = [A, B, p, q] ∧ p.2.2 = d ∧ q.2.2 = d) := by
  have hmem3 : ∀ {a b c : V3} {v : V3}, v ∈ ([a, b, c] : List V3) →
      v = a ∨ v = b ∨ v = c := by
    intro a b c v hv
    simpa using hv
  refine ⟨?_, ?_, ?_, ?_, ?_⟩
  · intro hA hB hC
    exact clipAux_of_forall_ge d _ [A, B, C] 0 fun v hv => by
      rcases hmem3 hv with rfl | rfl | rfl <;> assumption
  · intro hA hB hC
    exact clipAux_all_behind d [A, B, C] fun v hv => by
      rcases hmem3 hv with rfl | rfl | rfl <;> assumption
  · intro hA hB hC
    obtain ⟨p, q, hs, hp, hq⟩ := clipSides_both d A C B hA hC hB
    refine ⟨p, q, ?_, hp, hq⟩
    have h03 : 0 < ([A, B, C] : List V3).length := by norm_num
    have step := clipAux_step_clip d 2 [A, B, C] 0 h03 hA
    rw [show ([A, B, C] : List V3).getD
          ((0 + ([A, B, C] : List V3).length - 1) % ([A, B, C] : List V3).length)
          (0, 0, 0) = C from rfl,
        show ([A, B, C] : List V3).getD ((0 + 1) % ([A, B, C] : List V3).length)
          (0, 0, 0) = B from rfl,
        show ([A, B, C] : List V3).get ⟨0, h03⟩ = A from rfl, hs] at step
    rw [show clip [A, B, C] d = clipAux d 3 [A, B, C] 0 from rfl, step]
    simp only [List.take_zero, List.nil_append, List.drop_succ_cons, List.drop_zero,
      List.length_cons, List.length_nil, List.cons_append, List.nil_append]
    exact clipAux_of_forall_ge d 2 [p, q, B, C] (0 + (0 + 1 + 1)) fun v hv => by
      rcases List.mem_cons.mp hv with rfl | hv2
      · exact le_of_eq hp.symm
      · rcases hmem3 hv2 with rfl | rfl | rfl
        · exact le_of_eq hq.symm
        · exact hB
        · exact hC
  · intro hA hB hC
    obtain ⟨p, q, hs, hp, hq⟩ := clipSides_both d B A C hB hA hC
    refine ⟨p, q, ?_, hp, hq⟩
    have h03 : 0 < ([A, B, C] : List V3).length := by norm_num
    have h13 : 1 < ([A, B, C] : List V3).length := by norm_num
    have step0 := clipAux_step_keep d 2 [A, B, C] 0 h03
      (not_lt.mpr (by exact hA))
    have step1 := clipAux_step_clip d 1 [A, B, C] 1 h13 hB
    rw [show ([A, B, C] : List V3).getD
          ((1 + ([A, B, C] : List V3).length - 1) % ([A, B, C] : List V3).length)
          (0, 0, 0) = A from by norm_num,
        show ([A, B, C] : List V3).getD ((1 + 1) % ([A, B, C] : List V3).length)
          (0, 0, 0) = C from rfl,
        show ([A, B, C] : List V3).get ⟨1, h13⟩ = B from rfl, hs] at step1
    rw [show clip [A, B, C] d = clipAux d 3 [A, B, C] 0 from rfl, step0, step1]
    simp only [List.take_succ, List.take_zero, List.nil_append, List.drop_succ_cons,
      List.drop_zero, List.length_cons, List.length_nil, List.cons_append,
      List.nil_append, List.getElem?_cons_zero, Option.toList_some, List.singleton_append]
    exact clipAux_of_forall_ge d 1 _ _ fun v hv => by
      rcases List.mem_cons.mp hv with rfl | hv2
      · exact hA
      · rcases hmem3 hv2 with rfl | rfl | rfl
        · exact le_of_eq hp.symm
        · exact le_of_eq hq.symm
        · exact hC
  · intro hA hB hC
    obtain ⟨p, q, hs, hp, hq⟩ := clipSides_both d C B A hC hB hA
    refine ⟨p, q, ?_, hp, hq⟩
    have h03 : 0 < ([A, B, C] : List V3).length := by norm_num
    have h13 : 1 < ([A, B, C] : List V3).length := by norm_num
    have h23 : 2 < ([A, B, C] : List V3).length := by norm_num
    have step0 := clipAux_step_keep d 2 [A, B, C] 0 h03
      (not_lt.mpr (by exact hA))
    have step1 := clipAux_step_keep d 1 [A, B, C] 1 h13
      (not_lt.mpr (by exact hB))
    have step2 := clipAux_step_clip d 0 [A, B, C] 2 h23 hC
    rw [show ([A, B, C] : List V3).getD
          ((2 + ([A, B, C] : List V3).length - 1) % ([A, B, C] : List V3).length)
          (0, 0, 0) = B from by norm_num,
        show ([A, B, C] : List V3).getD ((2 + 1) % ([A, B, C] : List V3).length)
          (0, 0, 0) = A from by norm_num,
        show ([A, B, C] : List V3).get ⟨2, h23⟩ = C from rfl, hs] at step2
    rw [show clip [A, B, C] d = clipAux d 3 [A, B, C] 0 from rfl, step0, step1, step2,
      clipAux_zero]
    rfl

/-- C9: every vertex the near-plane clip outputs has `z ≥ d`; hence for a
positive clip distance no output vertex has `z = 0` (so the perspective
divide by `z` in projection is never a division by zero); and on the only
configurations the clip invokes it in (current vertex behind, neighbour at
or beyond), the intersection helper `_get_z` never takes its `None`
branch. -/
theorem C9_clip_outputs_safe (face : List V3) (d : ℚ) :
    (∀ v ∈ clip face d, d ≤ v.2.2) ∧
    (0 < d → ∀ v ∈ clip face d, v.2.2 ≠ 0) ∧
    (∀ v1 v2 : V3, v1.2.2 < d → d ≤ v2.2.2 → (get_z v1 v2 d).isSome = true) := by
  have h1 : ∀ v ∈ clip face d, d ≤ v.2.2 := by
    intro v hv
    exact clipAux_forall_ge d face.length face 0 (Nat.zero_le _) (by omega)
      (by simp) v hv
  refine ⟨h1, ?_, ?_⟩
  · intro hd v hv
    exact ne_of_gt (lt_of_lt_of_le hd (h1 v hv))
  · intro v1 v2 hlt hge
    rw [get_z_straddle v1 v2 d hlt hge]
    rfl

/-- C9 witness: the safety theorem at a concrete clipped triangle and a
concrete straddling edge. -/
theorem C9_clip_outputs_safe_witness :
    (0 : ℚ) < 1 ∧
      (∀ v ∈ clip [((0 : ℚ), (0 : ℚ), (0 : ℚ)), (4, 0, 2), (0, 4, 2)] 1, v.2.2 ≠ 0) ∧
      (((0 : ℚ), (0 : ℚ), (0 : ℚ)) : V3).2.2 < 1 ∧ (1 : ℚ) ≤ (((4 : ℚ), 0, 2) : V3).2.2 ∧
      (get_z ((0 : ℚ), (0 : ℚ), (0 : ℚ)) ((4 : ℚ), 0, 2) 1).isSome = true :=
  ⟨by norm_num,
   (C9_clip_outputs_safe [((0 : ℚ), (0 : ℚ), (0 : ℚ)), (4, 0, 2), (0, 4, 2)] 1).2.1
     (by norm_num),
   by norm_num, by norm_num,
   (C9_clip_outputs_safe [] 1).2.2 ((0 : ℚ), (0 : ℚ), (0 : ℚ)) ((4 : ℚ), 0, 2)
     (by norm_num) (by norm_num)⟩

/-- C6 witness: the triangle theorem applied to a concrete triangle with one
vertex behind the plane `z = 1`. -/
theorem C6_clip_triangle_witness :
    ((((0 : ℚ), (0 : ℚ), (0 : ℚ)) : V3).2.2 < 1 ∧ (1 : ℚ) ≤ (((4 : ℚ), 0, 2) : V3).2.2 ∧
      (1 : ℚ) ≤ (((0 : ℚ), 4, 2) : V3).2.2) ∧
    ∃ p q, clip [((0 : ℚ), (0 : ℚ), (0 : ℚ)), ((4 : ℚ), 0, 2), ((0 : ℚ), 4, 2)] 1 =
        [p, q, ((4 : ℚ), 0, 2), ((0 : ℚ), 4, 2)] ∧ p.2.2 = 1 ∧ q.2.2 = 1 :=
  ⟨⟨by norm_num, by norm_num, by norm_num⟩,
   (C6_clip_triangle ((0 : ℚ), (0 : ℚ), (0 : ℚ)) ((4 : ℚ), 0, 2) ((0 : ℚ), 4, 2) 1).2.2.1
     (by norm_num) (by norm_num) (by norm_num)⟩

/-! ## Model lemmas -/

theorem sumV3_map_sub (vs : List V3) (c : V3) :
    sumV3 (vs.map fun v => V3.sub v c) =
      V3.sub (sumV3 vs) (V3.smul (vs.length : ℚ) c) := by
  obtain ⟨c1, c2, c3⟩ := c
  induction vs with
  | nil => simp [sumV3, V3.sub, V3.smul]
  | cons x xs ih =>
      obtain ⟨x1, x2, x3⟩ := x
      simp only [List.map_cons, sumV3, List.foldr_cons] at ih ⊢
      rw [ih]
      simp only [V3.add, V3.sub, V3.smul, List.length_cons]
      push_cast
      refine congrArg₂ _ (by ring) (congrArg₂ _ (by ring) (by ring))

/-- C5 counterexample: the claim asserts the initial world position equals
the un-shifted centroid of the input vertices; for input
`[(2,0,0), (4,0,0)]` the centroid is `(3,0,0)` but the constructed object's
world position (its frame origin) is `(0,0,0)`. -/
theorem C5_counterexample :
    (Model.new [((2 : ℚ), 0, 0), ((4 : ℚ), 0, 0)]).origin = ((0 : ℚ), 0, 0) ∧
    Model.centroid ⟨[((2 : ℚ), 0, 0), ((4 : ℚ), 0, 0)], Space.init⟩ = ((3 : ℚ), 0, 0) ∧
    ¬(Model.new [((2 : ℚ), 0, 0), ((4 : ℚ), 0, 0)]).origin =
      Model.centroid ⟨[((2 : ℚ), 0, 0), ((4 : ℚ), 0, 0)], Space.init⟩ := by
  have h1 : (Model.new [((2 : ℚ), 0, 0), ((4 : ℚ), 0, 0)]).origin = ((0 : ℚ), 0, 0) := rfl
  have h2 : Model.centroid ⟨[((2 : ℚ), 0, 0), ((4 : ℚ), 0, 0)], Space.init⟩ =
      ((3 : ℚ), 0, 0) := by
    norm_num [Model.centroid, sumV3, V3.add, V3.smul]
  refine ⟨h1, h2, ?_⟩
  rw [h1, h2]
  intro h
  exact absurd (congrArg Prod.fst h) (by norm_num)

/-- C5 (amended): for every Object constructed from a non-empty vertex list,
the stored local vertices are the input vertices translated by minus the
input centroid (so the new centroid is the local origin), the frame is the
identity frame — and therefore the object's initial world position is the
world origin `(0,0,0)`, not the un-shifted input centroid. -/
theorem C5_model_new (vs : List V3) (hne : vs ≠ []) :
    (Model.new vs).vertices =
      vs.map (fun v => V3.sub v (Model.centroid ⟨vs, Space.init⟩)) ∧
    Model.centroid (Model.new vs) = ((0 : ℚ), 0, 0) ∧
    (Model.new vs).space = Space.init ∧
    (Model.new vs).origin = ((0 : ℚ), 0, 0) := by
  refine ⟨rfl, ?_, rfl, rfl⟩
  have hn : (vs.length : ℚ) ≠ 0 := by
    have : vs.length ≠ 0 := fun h => hne (List.length_eq_zero.mp h)
    exact_mod_cast this
  set c := Model.centroid ⟨vs, Space.init⟩ with hc
  have hcen : (Model.new vs).vertices = vs.map fun v => V3.sub v c := rfl
  rw [Model.centroid, hcen, sumV3_map_sub, List.length_map]
  rw [hc, Model.centroid]
  obtain ⟨s1, s2, s3⟩ : V3 := sumV3 vs
  simp only [V3.sub, V3.smul]
  refine congrArg₂ _ ?_ (congrArg₂ _ ?_ ?_) <;> field_simp

/-- C8: scaling by a positive factor `k` multiplies every stored vertex
componentwise by `k` and leaves the space (frame origin and basis)
untouched; scaling by `k` then by `1/k` restores the object exactly. -/
theorem C8_scale_roundtrip (m : Model) (k : ℚ) (hk : 0 < k) :
    (m.scale k).vertices = m.vertices.map (V3.smul k) ∧
    (m.scale k).space = m.space ∧
    (m.scale k).scale (1 / k) = m := by
  refine ⟨rfl, rfl, ?_⟩
  obtain ⟨vs, sp⟩ := m
  have hmap : V3.smul k⁻¹ ∘ V3.smul k = id := by
    funext v
    obtain ⟨a, b, c⟩ := v
    simp only [Function.comp_apply, V3.smul, id_eq]
    refine congrArg₂ _ ?_ (congrArg₂ _ ?_ ?_) <;> field_simp
  simp [Model.scale, List.map_map, one_div, hmap]

/-- C8 witness: the round trip on a concrete one-vertex object with
`k = 2`. -/
theorem C8_scale_roundtrip_witness :
    (0 : ℚ) < 2 ∧
      (((⟨[((1 : ℚ), 2, 3)], Space.init⟩ : Model).scale 2).scale (1 / 2) =
        (⟨[((1 : ℚ), 2, 3)], Space.init⟩ : Model)) :=
  ⟨by norm_num,
   (C8_scale_roundtrip ⟨[((1 : ℚ), 2, 3)], Space.init⟩ 2 (by norm_num)).2.2⟩

/-- C5 witness: the amended construction theorem on the concrete input
`[(2,0,0), (4,0,0)]`. -/
theorem C5_model_new_witness :
    ([((2 : ℚ), 0, 0), ((4 : ℚ), 0, 0)] : List V3) ≠ [] ∧
      (Model.new [((2 : ℚ), 0, 0), ((4 : ℚ), 0, 0)]).space = Space.init :=
  ⟨by simp,
   (C5_model_new [((2 : ℚ), 0, 0), ((4 : ℚ), 0, 0)] (by simp)).2.2.1⟩

/-! ## Basis validation lemmas -/

theorem basis_matrix_isSome_iff (b : Basis3) :
    (basis_matrix b).isSome = true ↔
      V3.normSq (V3.sub (V3.cross b.1 b.2.1) b.2.2) < ORTH_EPSILON_SQ := by
  by_cases h : V3.normSq (V3.sub (V3.cross b.1 b.2.1) b.2.2) < ORTH_EPSILON_SQ
  · simp [basis_matrix, is_orthogonal_basis, h]
  · simp [basis_matrix, is_orthogonal_basis, h]

theorem normSq_eq_dot (v : V3) : V3.normSq v = V3.dot v v := by
  obtain ⟨a, b, c⟩ := v
  simp only [V3.normSq, V3.dot]
  ring

theorem normSq_sub (a b : V3) :
    V3.normSq (V3.sub a b) = V3.normSq a - 2 * V3.dot a b + V3.normSq b := by
  obtain ⟨a1, a2, a3⟩ := a
  obtain ⟨b1, b2, b3⟩ := b
  simp only [V3.normSq, V3.sub, V3.dot]
  ring

/-- Lagrange identity for the cross product. -/
theorem normSq_cross (x y : V3) :
    V3.normSq (V3.cross x y) = V3.normSq x * V3.normSq y - (V3.dot x y) ^ 2 := by
  obtain ⟨x1, x2, x3⟩ := x
  obtain ⟨y1, y2, y3⟩ := y
  simp only [V3.normSq, V3.cross, V3.dot]
  ring

/-- The square of the scalar triple product equals the Gram determinant. -/
theorem triple_product_sq (x y z : V3) :
    (V3.dot (V3.cross x y) z) ^ 2 =
      V3.dot x x * (V3.dot y y * V3.dot z z - (V3.dot y z) ^ 2) -
        V3.dot x y * (V3.dot x y * V3.dot z z - V3.dot y z * V3.dot x z) +
        V3.dot x z * (V3.dot x y * V3.dot y z - V3.dot y y * V3.dot x z) := by
  obtain ⟨x1, x2, x3⟩ := x
  obtain ⟨y1, y2, y3⟩ := y
  obtain ⟨z1, z2, z3⟩ := z
  simp only [V3.cross, V3.dot]
  ring

theorem v3_sub_eq_zero {a b : V3} (h : V3.sub a b = ((0 : ℚ), 0, 0)) : a = b := by
  obtain ⟨a1, a2, a3⟩ := a
  obtain ⟨b1, b2, b3⟩ := b
  simp only [V3.sub, Prod.mk.injEq] at h
  simp only [Prod.mk.injEq]
  exact ⟨by linarith [h.1], by linarith [h.2.1], by linarith [h.2.2]⟩

theorem normSq_zero_iff (v : V3) : V3.normSq v = 0 ↔ v = ((0 : ℚ), 0, 0) := by
  obtain ⟨a, b, c⟩ := v
  simp only [V3.normSq, Prod.mk.injEq]
  constructor
  · intro h
    refine ⟨?_, ?_, ?_⟩ <;> nlinarith [sq_nonneg a, sq_nonneg b, sq_nonneg c]
  · rintro ⟨rfl, rfl, rfl⟩
    norm_num

/-- C3 counterexample: `((1,0,0), (1,1,0), (0,0,1))` fails unit length
(`‖(1,1,0)‖² = 2`) and mutual orthogonality (`(1,0,0)·(1,1,0) = 1`) by far
more than the `1e-9` tolerance, yet `basis_matrix` accepts it, because the
only check performed is `‖cross(v0, v1) - v2‖ < 1e-9` and
`cross((1,0,0), (1,1,0)) = (0,0,1)` exactly. -/
theorem C3_counterexample :
    (basis_matrix (((1 : ℚ), 0, 0), ((1 : ℚ), 1, 0), ((0 : ℚ), 0, 1))).isSome = true ∧
      V3.dot ((1 : ℚ), 0, 0) ((1 : ℚ), 1, 0) = 1 ∧
      V3.normSq ((1 : ℚ), 1, 0) = 2 := by
  refine ⟨?_, by norm_num [V3.dot], by norm_num [V3.normSq]⟩
  rw [basis_matrix_isSome_iff]
  norm_num [V3.normSq, V3.sub, V3.cross, ORTH_EPSILON_SQ]

/-- C3 (amended): `basis_matrix` succeeds exactly when
`‖cross(v0, v1) - v2‖² < (1e-9)²` — it does not check unit length or the
orthogonality of the first two vectors, so non-orthonormal triples whose
first two vectors cross to the third are accepted.  Restricted to exactly
orthonormal triples the check is exactly right-handedness:
`cross(v0, v1) = v2`. -/
theorem C3_basis_matrix_check (b : Basis3) :
    ((basis_matrix b).isSome = true ↔
      V3.normSq (V3.sub (V3.cross b.1 b.2.1) b.2.2) < ORTH_EPSILON_SQ) ∧
    (V3.normSq b.1 = 1 → V3.normSq b.2.1 = 1 → V3.normSq b.2.2 = 1 →
      V3.dot b.1 b.2.1 = 0 → V3.dot b.1 b.2.2 = 0 → V3.dot b.2.1 b.2.2 = 0 →
      ((basis_matrix b).isSome = true ↔ V3.cross b.1 b.2.1 = b.2.2)) := by
  obtain ⟨x, y, z⟩ := b
  refine ⟨basis_matrix_isSome_iff _, ?_⟩
  intro hx hy hz hxy hxz hyz
  rw [basis_matrix_isSome_iff]
  have hdots : (V3.dot (V3.cross x y) z) ^ 2 = 1 := by
    rw [triple_product_sq, ← normSq_eq_dot, ← normSq_eq_dot, ← normSq_eq_dot,
      hx, hy, hz, hxy, hxz, hyz]
    norm_num
  have hcn : V3.normSq (V3.cross x y) = 1 := by
    rw [normSq_cross, hx, hy, hxy]
    norm_num
  have hsplit : (V3.dot (V3.cross x y) z - 1) * (V3.dot (V3.cross x y) z + 1) = 0 := by
    linear_combination hdots
  rcases mul_eq_zero.mp hsplit with hone | hneg
  · have hdz : V3.dot (V3.cross x y) z = 1 := by linarith
    have hzero : V3.normSq (V3.sub (V3.cross x y) z) = 0 := by
      rw [normSq_sub, hcn, hz, hdz]
      norm_num
    have heq : V3.cross x y = z := v3_sub_eq_zero ((normSq_zero_iff _).mp hzero)
    rw [hzero, heq]
    simp only [iff_true]
    norm_num [ORTH_EPSILON_SQ]
  · have hdz : V3.dot (V3.cross x y) z = -1 := by linarith
    have hfour : V3.normSq (V3.sub (V3.cross x y) z) = 4 := by
      rw [normSq_sub, hcn, hz, hdz]
      norm_num
    have hne : ¬V3.cross x y = z := by
      intro he
      rw [he, ← normSq_eq_dot, hz] at hdz
      norm_num at hdz
    rw [hfour]
    simp only [hne, iff_false, not_lt]
    norm_num [ORTH_EPSILON_SQ]

/-- C3 witness: the amended theorem on the world-aligned identity basis,
which is exactly orthonormal and right-handed and is accepted. -/
theorem C3_basis_matrix_check_witness :
    (V3.normSq ((1 : ℚ), 0, 0) = 1 ∧ V3.normSq ((0 : ℚ), 1, 0) = 1 ∧
      V3.normSq ((0 : ℚ), 0, 1) = 1 ∧ V3.dot ((1 : ℚ), 0, 0) ((0 : ℚ), 1, 0) = 0 ∧
      V3.dot ((1 : ℚ), 0, 0) ((0 : ℚ), 0, 1) = 0 ∧
      V3.dot ((0 : ℚ), 1, 0) ((0 : ℚ), 0, 1) = 0) ∧
    ((basis_matrix (((1 : ℚ), 0, 0), ((0 : ℚ), 1, 0), ((0 : ℚ), 0, 1))).isSome = true ↔
      V3.cross ((1 : ℚ), 0, 0) ((0 : ℚ), 1, 0) = ((0 : ℚ), 0, 1)) :=
  ⟨⟨by norm_num [V3.normSq], by norm_num [V3.normSq], by norm_num [V3.normSq],
    by norm_num [V3.dot], by norm_num [V3.dot], by norm_num [V3.dot]⟩,
   (C3_basis_matrix_check (((1 : ℚ), 0, 0), ((0 : ℚ), 1, 0), ((0 : ℚ), 0, 1))).2
     (by norm_num [V3.normSq]) (by norm_num [V3.normSq]) (by norm_num [V3.normSq])
     (by norm_num [V3.dot]) (by norm_num [V3.dot]) (by norm_num [V3.dot])⟩

/-! ## Dict lemmas -/

theorem dictGet_eq_none_iff (l : List (ℕ × α)) (k : ℕ) :
    dictGet l k = none ↔ ∀ p ∈ l, p.1 ≠ k := by
  induction l with
  | nil => simp [dictGet]
  | cons x rest ih =>
      by_cases hx : x.1 = k
      · simp [dictGet, hx]
      · rw [dictGet, if_neg hx, ih, List.forall_mem_cons]
        exact (and_iff_right hx).symm

theorem dictGet_dictSet_self (l : List (ℕ × α)) (k : ℕ) (v : α) :
    dictGet (dictSet l k v) k = some v := by
  induction l with
  | nil => simp [dictSet, dictGet]
  | cons x rest ih =>
      by_cases hx : x.1 = k
      · rw [dictSet, if_pos hx, dictGet, if_pos rfl]
      · rw [dictSet, if_neg hx, dictGet, if_neg hx, ih]

theorem dictGet_dictSet_ne (l : List (ℕ × α)) (k k' : ℕ) (v : α) (h : k' ≠ k) :
    dictGet (dictSet l k v) k' = dictGet l k' := by
  induction l with
  | nil => simp [dictSet, dictGet, Ne.symm h]
  | cons x rest ih =>
      by_cases hx : x.1 = k
      · rw [dictSet, if_pos hx]
        simp [dictGet, hx, Ne.symm h]
      · rw [dictSet, if_neg hx]
        by_cases hx2 : x.1 = k'
        · simp [dictGet, hx2]
        · simp [dictGet, hx2, ih]

theorem dictGet_dictDel_ne (l : List (ℕ × α)) (k k' : ℕ) (h : k' ≠ k) :
    dictGet (dictDel l k) k' = dictGet l k' := by
  induction l with
  | nil => simp [dictDel]
  | cons x rest ih =>
      by_cases hx : x.1 = k
      · rw [dictDel, if_pos hx]
        simp [dictGet, hx, Ne.symm h]
      · rw [dictDel, if_neg hx]
        by_cases hx2 : x.1 = k'
        · simp [dictGet, hx2]
        · simp [dictGet, hx2, ih]

theorem dictGet_dictDel_self (l : List (ℕ × α)) (k : ℕ) (hnd : dictNodup l) :
    dictGet (dictDel l k) k = none := by
  induction l with
  | nil => simp [dictDel, dictGet]
  | cons x rest ih =>
      rw [dictNodup, List.map_cons, List.nodup_cons] at hnd
      by_cases hx : x.1 = k
      · rw [dictDel, if_pos hx, dictGet_eq_none_iff]
        intro p hp he
        exact hnd.1 (hx ▸ he ▸ List.mem_map_of_mem Prod.fst hp)
      · rw [dictDel, if_neg hx, dictGet, if_neg hx]
        exact ih hnd.2

/-- `dictGet` finds the first entry with the key: the list splits around
it. -/
theorem dictGet_eq_some_split (l : List (ℕ × α)) (k : ℕ) (v : α)
    (h : dictGet l k = some v) :
    ∃ l1 l2, l = l1 ++ (k, v) :: l2 ∧ ∀ p ∈ l1, p.1 ≠ k := by
  induction l with
  | nil => cases h
  | cons x rest ih =>
      by_cases hx : x.1 = k
      · rw [dictGet, if_pos hx] at h
        refine ⟨[], rest, ?_, by simp⟩
        obtain ⟨x1, x2⟩ := x
        cases hx
        cases h
        rfl
      · rw [dictGet, if_neg hx] at h
        obtain ⟨l1, l2, hsplit, hne⟩ := ih h
        exact ⟨x :: l1, l2, by rw [hsplit, List.cons_append],
          fun p hp => (List.mem_cons.mp hp).elim (fun he => he ▸ hx) (hne p)⟩

/-- C4 counterexample: on an empty collection, `add_motion` for key 1
succeeds and records a motion although no object with key 1 exists — the
motions-point-to-objects invariant is silently broken, no error is
raised. -/
theorem C4_counterexample :
    (dictGet (Manager.add_motion Manager.empty 1 [] [] []).motions 1).isSome = true ∧
      dictGet (Manager.add_motion Manager.empty 1 [] [] []).models 1 = none ∧
      ¬Manager.inv (Manager.add_motion Manager.empty 1 [] [] []) := by
  refine ⟨rfl, rfl, ?_⟩
  intro hinv
  exact absurd (hinv 1 rfl) (by decide)

/-- C4 (amended): `remove_model` does preserve the invariant and leaves no
stale motion entry, and `add_motion` preserves it when the key already
references an object; but `add_motion` on an absent key silently breaks the
invariant (no error is raised), as the counterexample shows. -/
theorem C4_motions_subset_models (mgr : Manager)
    (hnm : dictNodup mgr.motions) (hinv : Manager.inv mgr) :
    (∀ (k : ℕ) (mgr' : Manager), Manager.remove_model mgr k = some mgr' →
      dictGet mgr'.motions k = none ∧ Manager.inv mgr') ∧
    (∀ (k : ℕ) (positions orientations : List V3) (times : List ℚ),
      (dictGet mgr.models k).isSome = true →
      Manager.inv (Manager.add_motion mgr k positions orientations times)) := by
  constructor
  · intro k mgr' hrm
    rw [Manager.remove_model] at hrm
    by_cases hm : (dictGet mgr.models k).isSome
    case neg => rw [if_neg hm] at hrm; cases hrm
    rw [if_pos hm] at hrm
    injection hrm with hrm
    subst hrm
    have hmot : dictGet (if (dictGet mgr.motions k).isSome = true then
        dictDel mgr.motions k else mgr.motions) k = none := by
      by_cases ho : (dictGet mgr.motions k).isSome
      · rw [if_pos ho]
        exact dictGet_dictDel_self mgr.motions k hnm
      · rw [if_neg ho]
        exact Option.not_isSome_iff_eq_none.mp ho
    refine ⟨hmot, ?_⟩
    intro k2 hk2
    by_cases hkk : k2 = k
    · subst hkk
      rw [hmot] at hk2
      cases hk2
    · have hk2' : (dictGet mgr.motions k2).isSome = true := by
        by_cases ho : (dictGet mgr.motions k).isSome
        · rwa [if_pos ho, dictGet_dictDel_ne mgr.motions k k2 hkk] at hk2
        · rwa [if_neg ho] at hk2
      have := hinv k2 hk2'
      rwa [dictGet_dictDel_ne mgr.models k k2 hkk]
  · intro k positions orientations times hk k2 hk2
    rw [Manager.add_motion] at hk2
    by_cases hkk : k2 = k
    · subst hkk
      exact hk
    · rw [dictGet_dictSet_ne mgr.motions k k2 _ hkk] at hk2
      exact hinv k2 hk2

/-- C4 witness: the amended theorem on a one-object collection with no
motions; removing the object yields the empty collection, with no stale
motion and the invariant intact. -/
theorem C4_motions_subset_models_witness :
    dictNodup (([] : List (ℕ × Motion))) ∧
      (dictGet (⟨[], []⟩ : Manager).motions 1 = none ∧
        Manager.inv (⟨[], []⟩ : Manager)) :=
  ⟨by simp [dictNodup],
   (C4_motions_subset_models ⟨[(1, ⟨[], Space.init⟩)], []⟩ (by simp [dictNodup])
     (fun k h => nomatch h)).1 1 ⟨[], []⟩ rfl⟩

/-! ## update_models lemmas -/

theorem model_setBasis_spec (m : Model) (b : Basis3) (m2 : Model)
    (h : m.setBasis b = some m2) :
    m2.vertices = m.vertices ∧ m2.space.origin = m.space.origin ∧
      m2.space.basis = b := by
  rw [Model.setBasis, Space.setBasis, basis_matrix] at h
  by_cases hv : is_orthogonal_basis b.1 b.2.1 b.2.2
  · rw [if_pos hv] at h
    simp only [Option.map_some', Option.some.injEq] at h
    subst h
    exact ⟨rfl, rfl, rfl⟩
  · rw [if_neg hv] at h
    simp only [Option.map_none'] at h
    cases h

theorem manager_set_position_spec (mgr : Manager) (k : ℕ) (p : V3)
    (mgr' : Manager) (h : Manager.set_position mgr k p = some mgr') :
    mgr'.motions = mgr.motions ∧
    (∃ m, dictGet mgr.models k = some m ∧
      dictGet mgr'.models k = some (m.setOrigin p)) ∧
    ∀ k', k' ≠ k → dictGet mgr'.models k' = dictGet mgr.models k' := by
  cases hm : dictGet mgr.models k with
  | none =>
      simp only [Manager.set_position, hm] at h
      exact Option.noConfusion h
  | some m =>
      simp only [Manager.set_position, hm, Option.some.injEq] at h
      subst h
      exact ⟨rfl, ⟨m, rfl, dictGet_dictSet_self _ _ _⟩,
        fun k' hk' => dictGet_dictSet_ne _ _ _ _ hk'⟩

theorem manager_orient_spec (cosf sinf : ℚ → ℚ) (mgr : Manager) (k : ℕ)
    (yaw pitch roll : ℚ) (mgr' : Manager)
    (h : Manager.orient cosf sinf mgr k yaw pitch roll = some mgr') :
    mgr'.motions = mgr.motions ∧
    (∃ m m2, dictGet mgr.models k = some m ∧
      m.setBasis (oriented_basis cosf sinf yaw pitch roll) = some m2 ∧
      dictGet mgr'.models k = some m2) ∧
    ∀ k', k' ≠ k → dictGet mgr'.models k' = dictGet mgr.models k' := by
  cases hm : dictGet mgr.models k with
  | none =>
      simp only [Manager.orient, hm] at h
      exact Option.noConfusion h
  | some m =>
      simp only [Manager.orient, hm] at h
      cases hsb : m.setBasis (oriented_basis cosf sinf yaw pitch roll) with
      | none =>
          rw [hsb] at h
          simp only [Option.map_none'] at h
          exact Option.noConfusion h
      | some m2 =>
          rw [hsb] at h
          simp only [Option.map_some', Option.some.injEq] at h
          subst h
          exact ⟨rfl, ⟨m, m2, rfl, hsb, dictGet_dictSet_self _ _ _⟩,
            fun k' hk' => dictGet_dictSet_ne _ _ _ _ hk'⟩

/-- Full effect of the per-key body of the update loop. -/
theorem updateStep_spec (cosf sinf : ℚ → ℚ) (acc : Manager)
    (ks : ℕ × (Option V3 × Option V3)) (acc' : Manager)
    (h : Manager.updateStep cosf sinf acc ks = some acc') :
    acc'.motions = acc.motions ∧
    (∀ k', k' ≠ ks.1 → dictGet acc'.models k' = dictGet acc.models k') ∧
    (ks.2.1 = none → ks.2.2 = none → acc' = acc) ∧
    (∀ m, dictGet acc.models ks.1 = some m →
      ∃ m', dictGet acc'.models ks.1 = some m' ∧
        m'.vertices = m.vertices ∧
        (ks.2.1 = none → m'.space.origin = m.space.origin) ∧
        (∀ p, ks.2.1 = some p → m'.space.origin = p) ∧
        (ks.2.2 = none → m'.space.basis = m.space.basis) ∧
        (∀ o, ks.2.2 = some o →
          m'.space.basis = oriented_basis cosf sinf o.1 o.2.1 o.2.2)) := by
  obtain ⟨key, op, oo⟩ := ks
  cases op with
  | none =>
      cases oo with
      | none =>
          simp only [Manager.updateStep, Option.bind_eq_bind, Option.some_bind,
            Option.some.injEq] at h
          subst h
          refine ⟨rfl, fun k' _ => rfl, fun _ _ => rfl, ?_⟩
          intro m hm
          exact ⟨m, hm, rfl, fun _ => rfl, fun p hp => Option.noConfusion hp, fun _ => rfl,
            fun o ho => Option.noConfusion ho⟩
      | some o =>
          simp only [Manager.updateStep, Option.bind_eq_bind, Option.some_bind] at h
          obtain ⟨hmot, ⟨m0, m2, hm0, hsb, hk⟩, hne⟩ :=
            manager_orient_spec cosf sinf acc key o.1 o.2.1 o.2.2 acc' h
          refine ⟨hmot, hne, fun _ ho => Option.noConfusion ho, ?_⟩
          intro m hm
          rw [hm0] at hm
          injection hm with hm
          subst hm
          obtain ⟨hv, ho, hb⟩ := model_setBasis_spec m0 _ m2 hsb
          refine ⟨m2, hk, hv, fun _ => ho, fun p hp => Option.noConfusion hp,
            fun h2 => Option.noConfusion h2, ?_⟩
          intro o2 ho2
          injection ho2 with ho2
          subst ho2
          exact hb
  | some p =>
      cases hsp : Manager.set_position acc key p with
      | none =>
          simp only [Manager.updateStep, hsp, Option.bind_eq_bind,
            Option.none_bind] at h
          exact Option.noConfusion h
      | some mgr1 =>
          simp only [Manager.updateStep, hsp, Option.bind_eq_bind,
            Option.some_bind] at h
          obtain ⟨hmot1, ⟨m0, hm0, hk1⟩, hne1⟩ :=
            manager_set_position_spec acc key p mgr1 hsp
          cases oo with
          | none =>
              simp only [Option.some.injEq] at h
              subst h
              refine ⟨hmot1, hne1, fun hO _ => Option.noConfusion hO, ?_⟩
              intro m hm
              rw [hm0] at hm
              injection hm with hm
              subst hm
              refine ⟨m0.setOrigin p, hk1, rfl, fun hO => Option.noConfusion hO, ?_,
                fun _ => rfl, fun o ho => Option.noConfusion ho⟩
              intro p2 hp2
              injection hp2
          | some o =>
              obtain ⟨hmot2, ⟨m1, m2, hm1, hsb, hk2⟩, hne2⟩ :=
                manager_orient_spec cosf sinf mgr1 key o.1 o.2.1 o.2.2 acc' h
              refine ⟨hmot2.trans hmot1,
                fun k' hk' => (hne2 k' hk').trans (hne1 k' hk'),
                fun hO _ => Option.noConfusion hO, ?_⟩
              intro m hm
              rw [hm0] at hm
              injection hm with hm
              subst hm
              rw [hk1] at hm1
              injection hm1 with hm1
              subst hm1
              obtain ⟨hv, ho, hb⟩ := model_setBasis_spec _ _ m2 hsb
              refine ⟨m2, hk2, hv, fun hO => Option.noConfusion hO, ?_,
                fun h2 => Option.noConfusion h2, ?_⟩
              · intro p2 hp2
                injection hp2 with hp2
                subst hp2
                exact ho
              · intro o2 ho2
                injection ho2 with ho2
                subst ho2
                exact hb

/-- The update fold never changes the motions dict. -/
theorem foldl_updateStep_motions (cosf sinf : ℚ → ℚ) :
    ∀ (L : List (ℕ × (Option V3 × Option V3))) (acc acc' : Manager),
      L.foldlM (Manager.updateStep cosf sinf) acc = some acc' →
      acc'.motions = acc.motions := by
  intro L
  induction L with
  | nil =>
      intro acc acc' h
      injection h with h
      subst h
      rfl
  | cons x L ih =>
      intro acc acc' h
      rw [List.foldlM_cons] at h
      rcases Option.bind_eq_some.mp h with ⟨a1, hstep, hrest⟩
      exact (ih a1 acc' hrest).trans (updateStep_spec cosf sinf acc x a1 hstep).1

/-- The update fold leaves the model of any key absent from the processed
states untouched. -/
theorem foldl_updateStep_untouched (cosf sinf : ℚ → ℚ) (k : ℕ) :
    ∀ (L : List (ℕ × (Option V3 × Option V3))) (acc acc' : Manager),
      L.foldlM (Manager.updateStep cosf sinf) acc = some acc' →
      (∀ p ∈ L, p.1 ≠ k) →
      dictGet acc'.models k = dictGet acc.models k := by
  intro L
  induction L with
  | nil =>
      intro acc acc' h _
      injection h with h
      subst h
      rfl
  | cons x L ih =>
      intro acc acc' h hne
      rw [List.foldlM_cons] at h
      rcases Option.bind_eq_some.mp h with ⟨a1, hstep, hrest⟩
      have h1 := (updateStep_spec cosf sinf acc x a1 hstep).2.1 k
        (Ne.symm (hne x (List.mem_cons_self x L)))
      exact (ih a1 acc' hrest fun p hp => hne p (List.mem_cons_of_mem x hp)).trans h1

/-- Full effect of one `update_models` call on each key, for key-unique
motion dicts. -/
theorem update_models_spec (cosf sinf : ℚ → ℚ) (mgr : Manager) (t : ℚ)
    (mgr' : Manager) (hnd : dictNodup mgr.motions)
    (hupd : Manager.update_models cosf sinf mgr t = some mgr') :
    mgr'.motions = mgr.motions ∧
    (∀ k, dictGet mgr.motions k = none →
      dictGet mgr'.models k = dictGet mgr.models k) ∧
    (∀ k f m, dictGet mgr.motions k = some f → dictGet mgr.models k = some m →
      ∃ m', dictGet mgr'.models k = some m' ∧
        m'.vertices = m.vertices ∧
        ((f t).1 = none → m'.space.origin = m.space.origin) ∧
        (∀ p, (f t).1 = some p → m'.space.origin = p) ∧
        ((f t).2 = none → m'.space.basis = m.space.basis) ∧
        (∀ o, (f t).2 = some o →
          m'.space.basis = oriented_basis cosf sinf o.1 o.2.1 o.2.2) ∧
        ((f t).1 = none → (f t).2 = none → m' = m)) := by
  rw [Manager.update_models, Manager.get_states] at hupd
  refine ⟨foldl_updateStep_motions cosf sinf _ mgr mgr' hupd, ?_, ?_⟩
  · intro k hk
    refine foldl_updateStep_untouched cosf sinf k _ mgr mgr' hupd ?_
    intro p hp
    rcases List.mem_map.mp hp with ⟨q, hq, rfl⟩
    exact (dictGet_eq_none_iff mgr.motions k).mp hk q hq
  · intro k f m hk hm
    obtain ⟨l1, l2, hsplit, hne1⟩ := dictGet_eq_some_split mgr.motions k f hk
    have hne2 : ∀ p ∈ l2, p.1 ≠ k := by
      rw [dictNodup, hsplit, List.map_append, List.map_cons] at hnd
      have := (List.nodup_cons.mp (hnd.of_append_right)).1
      intro p hp he
      have hmem : p.1 ∈ l2.map Prod.fst := List.mem_map_of_mem Prod.fst hp
      rw [he] at hmem
      exact this hmem
    rw [hsplit, List.map_append, List.map_cons] at hupd
    rw [List.foldlM_append] at hupd
    rcases Option.bind_eq_some.mp hupd with ⟨a1, hfold1, hrest⟩
    rw [List.foldlM_cons] at hrest
    rcases Option.bind_eq_some.mp hrest with ⟨a2, hstep, hfold2⟩
    have ha1 : dictGet a1.models k = some m := by
      rw [foldl_updateStep_untouched cosf sinf k _ mgr a1 hfold1 ?hp]
      · exact hm
      case hp =>
        intro p hp
        rcases List.mem_map.mp hp with ⟨q, hq, rfl⟩
        exact hne1 q hq
    obtain ⟨hmot, hneq, hid, hmain⟩ := updateStep_spec cosf sinf a1 (k, f t) a2 hstep
    obtain ⟨m', hk', hv, ho1, ho2, hb1, hb2⟩ := hmain m ha1
    have hk'' : dictGet mgr'.models k = some m' := by
      rw [foldl_updateStep_untouched cosf sinf k _ a2 mgr' hfold2 ?hp2]
      · exact hk'
      case hp2 =>
        intro p hp
        rcases List.mem_map.mp hp with ⟨q, hq, rfl⟩
        exact hne2 q hq
    refine ⟨m', hk'', hv, ho1, ho2, hb1, hb2, ?_⟩
    intro hO1 hO2
    have ha2 : a2 = a1 := hid hO1 hO2
    rw [ha2, ha1] at hk'
    injection hk' with hk'
    exact hk'.symm

/-- C7: for every collection (with key-unique motion dict) and time `t`, a
completed `advance(t)` leaves every object without a motion untouched; and
for an object whose motion yields an absent position or orientation
component at `t`, the corresponding frame field (origin resp. basis) is left
untouched while a present component is written (origin set to the position,
basis set to `oriented_basis` of the yaw/pitch/roll triple). -/
theorem C7_advance_effects (cosf sinf : ℚ → ℚ) (mgr : Manager) (t : ℚ)
    (mgr' : Manager) (hnd : dictNodup mgr.motions)
    (hupd : Manager.update_models cosf sinf mgr t = some mgr') :
    (∀ k, dictGet mgr.motions k = none →
      dictGet mgr'.models k = dictGet mgr.models k) ∧
    (∀ k f m, dictGet mgr.motions k = some f → dictGet mgr.models k = some m →
      ∃ m', dictGet mgr'.models k = some m' ∧
        m'.vertices = m.vertices ∧
        ((f t).1 = none → m'.space.origin = m.space.origin) ∧
        (∀ p, (f t).1 = some p → m'.space.origin = p) ∧
        ((f t).2 = none → m'.space.basis = m.space.basis) ∧
        (∀ o, (f t).2 = some o →
          m'.space.basis = oriented_basis cosf sinf o.1 o.2.1 o.2.2)) :=
  ⟨(update_models_spec cosf sinf mgr t mgr' hnd hupd).2.1,
   fun k f m hk hm => by
     obtain ⟨m', h1, h2, h3, h4, h5, h6, _⟩ :=
       (update_models_spec cosf sinf mgr t mgr' hnd hupd).2.2 k f m hk hm
     exact ⟨m', h1, h2, h3, h4, h5, h6⟩⟩

/-- C7 witness: advancing a one-object collection whose motion yields a
position and no orientation: the origin is written, and the theorem applies
with every hypothesis discharged on concrete data. -/
theorem C7_advance_effects_witness :
    dictNodup ([(1, (fun _ => (some ((5 : ℚ), 6, 7), none) : Motion))]) ∧
      (∃ m', dictGet
          (⟨[(1, Model.setOrigin ⟨[((1 : ℚ), 2, 3)], Space.init⟩ ((5 : ℚ), 6, 7))],
            [(1, (fun _ => (some ((5 : ℚ), 6, 7), none) : Motion))]⟩ : Manager).models 1 =
          some m' ∧ m'.space.origin = ((5 : ℚ), 6, 7)) := by
  refine ⟨by simp [dictNodup], ?_⟩
  obtain ⟨m', h1, _, _, h4, _, _⟩ :=
    (C7_advance_effects (fun _ => 0) (fun _ => 0)
      ⟨[(1, (⟨[((1 : ℚ), 2, 3)], Space.init⟩ : Model))],
        [(1, (fun _ => (some ((5 : ℚ), 6, 7), none) : Motion))]⟩ 0
      ⟨[(1, Model.setOrigin ⟨[((1 : ℚ), 2, 3)], Space.init⟩ ((5 : ℚ), 6, 7))],
        [(1, (fun _ => (some ((5 : ℚ), 6, 7), none) : Motion))]⟩
      (by simp [dictNodup]) rfl).2 1 _ _ rfl rfl
  exact ⟨m', h1, h4 ((5 : ℚ), 6, 7) rfl⟩

/-- C10: the motion map built from all-default (empty) samples is total and
returns (no position, no orientation) at every time and from every cursor
state; consequently an object carrying it is never changed by a completed
`advance`, at any time. -/
theorem C10_empty_motion_inert :
    (∀ (t : ℚ) (s : ℕ), pwStep ([] : List ℚ) ([] : List V3) s t = (none, s)) ∧
    (∀ t : ℚ, motionOfSamples [] [] [] t = (none, none)) ∧
    (∀ (cosf sinf : ℚ → ℚ) (mgr : Manager) (t : ℚ) (mgr' : Manager) (k : ℕ)
      (m : Model), dictNodup mgr.motions →
      Manager.update_models cosf sinf mgr t = some mgr' →
      dictGet mgr.motions k = some (motionOfSamples [] [] []) →
      dictGet mgr.models k = some m →
      dictGet mgr'.models k = some m) := by
  refine ⟨fun t s => by cases s <;> rfl, fun t => rfl, ?_⟩
  intro cosf sinf mgr t mgr' k m hnd hupd hmot hm
  obtain ⟨m', h1, _, _, _, _, _, heq⟩ :=
    (update_models_spec cosf sinf mgr t mgr' hnd hupd).2.2 k _ m hmot hm
  rw [h1, heq rfl rfl]

/-- C10 witness: a concrete one-object collection carrying the all-default
motion, advanced to time 0, keeps its object unchanged. -/
theorem C10_empty_motion_inert_witness :
    dictNodup ([(1, motionOfSamples [] [] [])]) ∧
      dictGet (⟨[(1, (⟨[((1 : ℚ), 2, 3)], Space.init⟩ : Model))],
        [(1, motionOfSamples [] [] [])]⟩ : Manager).models 1 =
        some (⟨[((1 : ℚ), 2, 3)], Space.init⟩ : Model) :=
  ⟨by simp [dictNodup],
   C10_empty_motion_inert.2.2 (fun _ => 0) (fun _ => 0)
     ⟨[(1, (⟨[((1 : ℚ), 2, 3)], Space.init⟩ : Model))],
       [(1, motionOfSamples [] [] [])]⟩ 0 _ 1 _
     (by simp [dictNodup]) rfl rfl rfl⟩
